import Mathlib

/-!
Shallow embedding of the feedforward neural-network engine from
src/src/network.rs.  Scalars are modelled as integers: the claims under
verification are structural — about shapes, ordering, data flow and error
propagation — and hold over any commutative ring of scalars, while
double-precision rounding behaviour is outside the model.  The matrix
primitive (crate::matrix, whose source file is not part of the provided
sources) is modelled from the specification, section 4.1.  Operations
that panic in the original on a shape or index violation return none
here.  The activation capability is an explicit pair of scalar
functions passed as arguments; the random source is an explicit stream
of scalars.
-/

namespace NN

/-- Modelled from the spec: the matrix primitive of the repository — a 2D
array of scalars with a row count, a column count and row-major backing
storage of rows × cols scalars addressed by (row, column). -/
structure Matrix where
  rows : Nat
  cols : Nat
  data : List (List ℤ)
deriving DecidableEq, Repr

def Matrix.empty : Matrix := ⟨0, 0, []⟩

/-- Entry at row i, column j (0 when out of range, making the accessor total). -/
def Matrix.entry (m : Matrix) (i j : Nat) : ℤ := (m.data.getD i []).getD j 0

/-- Build an r × c matrix whose (i, j) entry is f i j. -/
def Matrix.ofFn (r c : Nat) (f : Nat → Nat → ℤ) : Matrix :=
  ⟨r, c, (List.range r).map fun i => (List.range c).map fun j => f i j⟩

/-- Structural well-formedness: the backing storage really is rows × cols. -/
def Matrix.WF (m : Matrix) : Prop :=
  m.data.length = m.rows ∧ ∀ row ∈ m.data, row.length = m.cols

/-- Modelled from the spec: random fill with a given shape; the external
random source is modelled as an explicit stream of scalars. -/
def Matrix.random (r c : Nat) (src : Nat → ℤ) : Matrix :=
  Matrix.ofFn r c fun i j => src (i * c + j)

/-- Modelled from the spec: wrap an ordered sequence of N scalars as a 1 × N
matrix. -/
def Matrix.row (values : List ℤ) : Matrix := ⟨1, values.length, [values]⟩

/-- Modelled from the spec: apply a scalar function to every cell, preserving
shape. -/
def Matrix.map (m : Matrix) (f : ℤ → ℤ) : Matrix :=
  ⟨m.rows, m.cols, m.data.map fun r => r.map f⟩

/-- Modelled from the spec: transpose, result shape (cols, rows). -/
def Matrix.transpose (m : Matrix) : Matrix :=
  Matrix.ofFn m.cols m.rows fun i j => m.entry j i

def Matrix.addCore (a b : Matrix) : Matrix :=
  Matrix.ofFn a.rows a.cols fun i j => a.entry i j + b.entry i j

/-- Modelled from the spec: elementwise add; shape mismatch (a panic in the
original) is none. -/
def Matrix.add (a b : Matrix) : Option Matrix :=
  if a.rows = b.rows ∧ a.cols = b.cols then some (a.addCore b) else none

def Matrix.subCore (a b : Matrix) : Matrix :=
  Matrix.ofFn a.rows a.cols fun i j => a.entry i j - b.entry i j

/-- Modelled from the spec: elementwise subtract; shape mismatch is none. -/
def Matrix.sub (a b : Matrix) : Option Matrix :=
  if a.rows = b.rows ∧ a.cols = b.cols then some (a.subCore b) else none

def Matrix.dotCore (a b : Matrix) : Matrix :=
  Matrix.ofFn a.rows a.cols fun i j => a.entry i j * b.entry i j

/-- Modelled from the spec: elementwise (Hadamard) product, called dot in the
domain vocabulary; shape mismatch is none. -/
def Matrix.dot (a b : Matrix) : Option Matrix :=
  if a.rows = b.rows ∧ a.cols = b.cols then some (a.dotCore b) else none

def Matrix.mulCore (a b : Matrix) : Matrix :=
  Matrix.ofFn a.rows b.cols fun i k =>
    ((List.range a.cols).map fun j => a.entry i j * b.entry j k).sum

/-- Modelled from the spec: standard matrix product; requires a.cols = b.rows,
result shape (a.rows, b.cols); shape mismatch is none. -/
def Matrix.mul (a b : Matrix) : Option Matrix :=
  if a.cols = b.rows then some (a.mulCore b) else none

/-- The entries of column 0, as an ordered sequence of length rows. -/
def Matrix.col0 (m : Matrix) : List ℤ :=
  (List.range m.rows).map fun j => m.entry j 0

/-- The network state, mirroring struct Network of src/src/network.rs:
layer sizes, per-transition weight and bias matrices, the cached per-layer
activation columns of the most recent forward pass, and the learning rate. -/
structure Network where
  layers : List Nat
  weights : List Matrix
  biases : List Matrix
  data : List Matrix
  learning_rate : ℤ
deriving DecidableEq, Repr

def Network.withData (net : Network) (d : List Matrix) : Network :=
  ⟨net.layers, net.weights, net.biases, d, net.learning_rate⟩

def Network.withParams (net : Network) (ws bs : List Matrix) : Network :=
  ⟨net.layers, ws, bs, net.data, net.learning_rate⟩

/-- Network::new (src/src/network.rs lines 52-69).  There is no validation:
the only failing input is the empty layer list, where computing
layers.len() - 1 for Vec::with_capacity underflows and panics.  For every
other input a network is produced, with one random weight matrix of shape
(layers at i+1, layers at i) and one random bias matrix of shape
(layers at i+1, 1) per adjacent pair, an empty activation cache, and the
given learning rate stored unchecked.  The random source is an explicit
stream per random call. -/
def Network.new (layers : List Nat) (lr : ℤ) (src : Nat → Nat → ℤ) : Option Network :=
  if layers.isEmpty then none
  else some ⟨layers,
    (List.range (layers.length - 1)).map fun i =>
      Matrix.random (layers.getD (i + 1) 0) (layers.getD i 0) (src (2 * i)),
    (List.range (layers.length - 1)).map fun i =>
      Matrix.random (layers.getD (i + 1) 0) 1 (src (2 * i + 1)),
    [], lr⟩

/-- The persisted record, mirroring struct Data of src/src/network.rs:
exactly the four fields layers, learning_rate, weights, biases. -/
structure Data where
  layers : List Nat
  learning_rate : ℤ
  weights : List Matrix
  biases : List Matrix
deriving DecidableEq, Repr

/-- From for Data (src/src/network.rs lines 18-27): snapshot the four
persisted fields of a network. -/
def Data.ofNetwork (net : Network) : Data :=
  ⟨net.layers, net.learning_rate, net.weights, net.biases⟩

/-- Network::save (src/src/network.rs lines 88-95).  Modelled from the spec:
the serialization collaborator (nanoserde JSON and the file system, both
external to the provided sources) round-trips the record losslessly, so a
successful save is modelled as producing the record itself. -/
def Network.save (net : Network) : Data := Data.ofNetwork net

/-- Network::load (src/src/network.rs lines 71-86).  Modelled from the spec:
a successfully parsed record is loaded field by field, with the activation
cache reinitialized empty. -/
def Network.load (d : Data) : Network :=
  ⟨d.layers, d.weights, d.biases, [], d.learning_rate⟩

/-- The loop of Network::feed_forward (src/src/network.rs lines 105-112):
starting at transition index i with n transitions left, repeatedly replace
the current column by activation of (weights at i) * current + (biases at i)
and push it onto the cache accumulator. -/
def ffLoop (φ : ℤ → ℤ) (ws bs : List Matrix) :
    Nat → Nat → Matrix → List Matrix → Option (Matrix × List Matrix)
  | _, 0, cur, acc => some (cur, acc)
  | i, n + 1, cur, acc => do
    let w ← ws[i]?
    let m ← w.mul cur
    let b ← bs[i]?
    let s ← m.add b
    let c := s.map φ
    ffLoop φ ws bs (i + 1) n c (acc ++ [c])

/-- Network::feed_forward (src/src/network.rs lines 97-115).  The input is
cached as a column vector, each transition applies weights, bias and the
activation, the cache is overwritten, and the final column's entries are
returned (row 0 of its transpose). -/
def Network.feed_forward (φ : ℤ → ℤ) (net : Network) (inputs : List ℤ) :
    Option (List ℤ × Network) :=
  match net.layers.head? with
  | none => none
  | some l0 =>
    if inputs.length = l0 then
      let cur := (Matrix.row inputs).transpose
      match ffLoop φ net.weights net.biases 0 (net.layers.length - 1) cur [cur] with
      | none => none
      | some (fin, dat) => some (fin.transpose.data.getD 0 [], net.withData dat)
    else none

/-- The loop of Network::back_propogate (src/src/network.rs lines 126-134),
walking transition indices from n - 1 down to 0.  Each step scales the
gradient, adds the outer product into the weight matrix, adds the scaled
gradient into the bias matrix, then propagates the error through the
just-updated weight matrix (the assignment on line 129 happens before the
read on line 132) and takes the next gradient from the cached activation. -/
def bpLoop (φd : ℤ → ℤ) (lr : ℤ) (cache : List Matrix) :
    Nat → List Matrix → List Matrix → Matrix → Matrix →
    Option (List Matrix × List Matrix)
  | 0, ws, bs, _, _ => some (ws, bs)
  | n + 1, ws, bs, errors, gradients => do
    let ge ← gradients.dot errors
    let g := ge.map fun x => x * lr
    let d ← cache[n]?
    let w ← ws[n]?
    let outer ← g.mul d.transpose
    let w' ← w.add outer
    let b ← bs[n]?
    let b' ← b.add g
    let errors' ← w'.transpose.mul errors
    bpLoop φd lr cache n (ws.set n w') (bs.set n b') errors' (d.map φd)

/-- Network::back_propogate (src/src/network.rs lines 117-135).  Note that
outputs and targets are wrapped as 1 × N row matrices (no transpose, unlike
feed_forward). -/
def Network.back_propogate (φd : ℤ → ℤ) (net : Network) (outputs targets : List ℤ) :
    Option Network :=
  match net.layers.getLast? with
  | none => none
  | some lastSize =>
    if targets.length = lastSize then do
      let errors ← (Matrix.row targets).sub (Matrix.row outputs)
      let gradients := (Matrix.row outputs).map φd
      let r ← bpLoop φd net.learning_rate net.data (net.layers.length - 1)
        net.weights net.biases errors gradients
      some (net.withParams r.1 r.2)
    else none

/-- Modelled from the spec: the backward-pass loop as described in section
4.2 steps 1 to 5, parameterized by whether step 4 propagates the error
through the pre-update weight matrix (post = false, the spec's words) or
through the post-update weight matrix (post = true). -/
def bpLoopSpec (post : Bool) (φd : ℤ → ℤ) (lr : ℤ) (cache : List Matrix) :
    Nat → List Matrix → List Matrix → Matrix → Matrix →
    Option (List Matrix × List Matrix)
  | 0, ws, bs, _, _ => some (ws, bs)
  | n + 1, ws, bs, errors, gradients => do
    let ge ← gradients.dot errors
    let scaled := ge.map fun x => x * lr
    let d ← cache[n]?
    let w ← ws[n]?
    let outer ← scaled.mul d.transpose
    let wNew ← w.add outer
    let b ← bs[n]?
    let bNew ← b.add scaled
    let errNext ← (cond post wNew w).transpose.mul errors
    bpLoopSpec post φd lr cache n (ws.set n wNew) (bs.set n bNew) errNext (d.map φd)

/-- Modelled from the spec: back_propogate as described in section 4.2,
parameterized like bpLoopSpec by the weight value used in error
propagation. -/
def backPropogateSpec (post : Bool) (φd : ℤ → ℤ) (net : Network)
    (outputs targets : List ℤ) : Option Network :=
  match net.layers.getLast? with
  | none => none
  | some lastSize =>
    if targets.length = lastSize then do
      let errors ← (Matrix.row targets).sub (Matrix.row outputs)
      let gradients := (Matrix.row outputs).map φd
      let r ← bpLoopSpec post φd net.learning_rate net.data (net.layers.length - 1)
        net.weights net.biases errors gradients
      some (net.withParams r.1 r.2)
    else none

/-- The progress-logging guard of Network::train (src/src/network.rs line
139): epochs < 100 short-circuits, otherwise i % (epochs / 100) is computed,
which in Rust panics (none) when the divisor is zero. -/
def trainLogGuard (epochs i : Nat) : Option Bool :=
  if epochs < 100 then some true
  else if epochs / 100 = 0 then none
  else some (i % (epochs / 100) == 0)

/-- One training example of Network::train (src/src/network.rs lines
144-147): index into the input batch, feed forward, index into the target
batch, back-propagate.  An out-of-range index panics (none). -/
def trainStep (φ φd : ℤ → ℤ) (inputs targets : List (List ℤ))
    (net : Network) (j : Nat) : Option Network := do
  let inp ← inputs[j]?
  let r ← Network.feed_forward φ net inp
  let t ← targets[j]?
  Network.back_propogate φd r.2 r.1 t

/-- One epoch of Network::train: the examples are visited in batch order,
j = 0, 1, ..., inputs.length - 1. -/
def trainEpoch (φ φd : ℤ → ℤ) (inputs targets : List (List ℤ))
    (net : Network) : Option Network :=
  (List.range inputs.length).foldlM (trainStep φ φd inputs targets) net

/-- The epoch loop of Network::train (src/src/network.rs lines 138-148):
for i in 1..=epochs, evaluate the logging guard, then run one epoch. -/
def trainLoop (φ φd : ℤ → ℤ) (inputs targets : List (List ℤ)) (epochs : Nat) :
    Nat → Nat → Network → Option Network
  | _, 0, net => some net
  | i, n + 1, net => do
    let _ ← trainLogGuard epochs i
    let net' ← trainEpoch φ φd inputs targets net
    trainLoop φ φd inputs targets epochs (i + 1) n net'

/-- Network::train (src/src/network.rs lines 137-151). -/
def Network.train (φ φd : ℤ → ℤ) (net : Network) (inputs targets : List (List ℤ))
    (epochs : Nat) : Option Network :=
  trainLoop φ φd inputs targets epochs 1 epochs net

/-- Modelled from the spec: one epoch as described in section 4.2 of the
spec — for each paired (input, target) in order, call forward then
backward. -/
def trainEpochZip (φ φd : ℤ → ℤ) (inputs targets : List (List ℤ))
    (net : Network) : Option Network :=
  (inputs.zip targets).foldlM
    (fun n p => do
      let r ← Network.feed_forward φ n p.1
      Network.back_propogate φd r.2 r.1 p.2)
    net

/-- A column vector of the height prescribed by entry i of the layer-size
list. -/
def ColShape (L : List Nat) (i : Nat) (m : Matrix) : Prop :=
  m.rows = L.getD i 0 ∧ m.cols = 1 ∧ m.WF

/-- The forward-pass step relation of the spec: next is the elementwise
activation of (weights at i) * prev + (biases at i). -/
def StepRel (φ : ℤ → ℤ) (ws bs : List Matrix) (i : Nat) (prev next : Matrix) : Prop :=
  ∃ w b m s, ws[i]? = some w ∧ bs[i]? = some b ∧
    w.mul prev = some m ∧ m.add b = some s ∧ next = s.map φ

/-- The structural invariant of a constructed network: at least two layers,
one weight and one bias matrix per transition, with the shapes prescribed by
the layer-size list. -/
def Network.WF (net : Network) : Prop :=
  2 ≤ net.layers.length ∧
  net.weights.length = net.layers.length - 1 ∧
  net.biases.length = net.layers.length - 1 ∧
  ∀ i, i < net.layers.length - 1 →
    (net.weights.getD i Matrix.empty).rows = net.layers.getD (i + 1) 0 ∧
    (net.weights.getD i Matrix.empty).cols = net.layers.getD i 0 ∧
    (net.weights.getD i Matrix.empty).WF ∧
    (net.biases.getD i Matrix.empty).rows = net.layers.getD (i + 1) 0 ∧
    (net.biases.getD i Matrix.empty).cols = 1 ∧
    (net.biases.getD i Matrix.empty).WF

/-- Shape preservation between two network states: same layer-size list and
the same number and shapes of weight and bias matrices. -/
def ShapePreserved (a b : Network) : Prop :=
  b.layers = a.layers ∧
  b.weights.length = a.weights.length ∧
  b.biases.length = a.biases.length ∧
  (∀ i, i < a.weights.length →
    (b.weights.getD i Matrix.empty).rows = (a.weights.getD i Matrix.empty).rows ∧
    (b.weights.getD i Matrix.empty).cols = (a.weights.getD i Matrix.empty).cols) ∧
  (∀ i, i < a.biases.length →
    (b.biases.getD i Matrix.empty).rows = (a.biases.getD i Matrix.empty).rows ∧
    (b.biases.getD i Matrix.empty).cols = (a.biases.getD i Matrix.empty).cols)


/-- The identity activation, used as a concrete activation capability in
witnesses and counterexamples. -/
def actId : ℤ → ℤ := fun x => x

/-- An all-zero random source for witnesses. -/
def srcZero : Nat → Nat → ℤ := fun _ _ => 0

/-- A concrete well-formed 3-4-2 network with all-zero parameters. -/
def net342 : Network :=
  ⟨[3, 4, 2],
   [Matrix.ofFn 4 3 fun _ _ => 0, Matrix.ofFn 2 4 fun _ _ => 0],
   [Matrix.ofFn 4 1 fun _ _ => 0, Matrix.ofFn 2 1 fun _ _ => 0],
   [], 1⟩

/-- net342 with the activation cache of a forward pass on input [1, 2, 3]. -/
def net342c : Network :=
  ⟨[3, 4, 2],
   [Matrix.ofFn 4 3 fun _ _ => 0, Matrix.ofFn 2 4 fun _ _ => 0],
   [Matrix.ofFn 4 1 fun _ _ => 0, Matrix.ofFn 2 1 fun _ _ => 0],
   [⟨3, 1, [[1], [2], [3]]⟩, ⟨4, 1, [[0], [0], [0], [0]]⟩, ⟨2, 1, [[0], [0]]⟩],
   1⟩

/-- A concrete well-formed 1-2 network (output layer of size two) with the
activation cache of a forward pass in place. -/
def netC2 : Network :=
  ⟨[1, 2], [⟨2, 1, [[0], [0]]⟩], [⟨2, 1, [[0], [0]]⟩],
   [⟨1, 1, [[0]]⟩, ⟨2, 1, [[0], [0]]⟩], 1⟩

/-- A concrete well-formed 1-1-1 network with unit weights, zero biases and a
cached forward pass, on which pre-update and post-update error propagation
give different training results. -/
def netC3 : Network :=
  ⟨[1, 1, 1], [⟨1, 1, [[1]]⟩, ⟨1, 1, [[1]]⟩], [⟨1, 1, [[0]]⟩, ⟨1, 1, [[0]]⟩],
   [⟨1, 1, [[1]]⟩, ⟨1, 1, [[1]]⟩, ⟨1, 1, [[1]]⟩], 1⟩

/-- A minimal well-formed 1-1 network used in training witnesses. -/
def net11 : Network :=
  ⟨[1, 1], [⟨1, 1, [[1]]⟩], [⟨1, 1, [[0]]⟩], [], 1⟩


instance (m : Matrix) : Decidable m.WF := by
  unfold Matrix.WF
  infer_instance

instance (net : Network) : Decidable net.WF := by
  unfold Network.WF
  infer_instance

lemma getElem?_eq_getD {α : Type} (l : List α) (d : α) {i : Nat} (h : i < l.length) :
    l[i]? = some (l.getD i d) := by
  rw [List.getElem?_eq_getElem h, List.getD_eq_getElem?_getD, List.getElem?_eq_getElem h]
  rfl

lemma getD_map_range {α : Type} (f : Nat → α) (d : α) {i n : Nat} (h : i < n) :
    ((List.range n).map f).getD i d = f i := by
  rw [List.getD_eq_getElem?_getD, List.getElem?_map, List.getElem?_range h]
  rfl

lemma getD_cons_succ {α : Type} (a : α) (l : List α) (n : Nat) (d : α) :
    (a :: l).getD (n + 1) d = l.getD n d := rfl

lemma getD_cons_zero {α : Type} (a : α) (l : List α) (d : α) :
    (a :: l).getD 0 d = a := rfl

lemma Matrix.ofFn_wf (r c : Nat) (f : Nat → Nat → ℤ) : (Matrix.ofFn r c f).WF := by
  constructor
  · simp [Matrix.ofFn]
  · intro row hrow
    simp only [Matrix.ofFn, List.mem_map, List.mem_range] at hrow
    obtain ⟨i, _, rfl⟩ := hrow
    simp [Matrix.ofFn]

lemma Matrix.ofFn_entry (r c : Nat) (f : Nat → Nat → ℤ) {i j : Nat}
    (hi : i < r) (hj : j < c) : (Matrix.ofFn r c f).entry i j = f i j := by
  unfold Matrix.ofFn Matrix.entry
  rw [getD_map_range _ _ hi, getD_map_range _ _ hj]

lemma Matrix.map_rows (m : Matrix) (f : ℤ → ℤ) : (m.map f).rows = m.rows := rfl

lemma Matrix.map_cols (m : Matrix) (f : ℤ → ℤ) : (m.map f).cols = m.cols := rfl

lemma Matrix.map_wf {m : Matrix} (h : m.WF) (f : ℤ → ℤ) : (m.map f).WF := by
  obtain ⟨h1, h2⟩ := h
  constructor
  · simpa [Matrix.map] using h1
  · intro row hrow
    simp only [Matrix.map, List.mem_map] at hrow
    obtain ⟨r, hr, rfl⟩ := hrow
    simpa [Matrix.map] using h2 r hr

lemma Matrix.transpose_wf (m : Matrix) : m.transpose.WF := Matrix.ofFn_wf _ _ _

lemma Matrix.row_wf (values : List ℤ) : (Matrix.row values).WF := by
  constructor
  · rfl
  · intro row hrow
    simp only [Matrix.row, List.mem_singleton] at hrow
    subst hrow
    rfl

lemma Matrix.add_eq_some {a b : Matrix} (h1 : a.rows = b.rows) (h2 : a.cols = b.cols) :
    a.add b = some (a.addCore b) := by
  unfold Matrix.add
  rw [if_pos ⟨h1, h2⟩]

lemma Matrix.mul_eq_some {a b : Matrix} (h : a.cols = b.rows) :
    a.mul b = some (a.mulCore b) := by
  unfold Matrix.mul
  rw [if_pos h]

lemma Matrix.col0_length (m : Matrix) : m.col0.length = m.rows := by
  simp [Matrix.col0]

lemma Matrix.transpose_row0 {m : Matrix} (hc : m.cols = 1) :
    m.transpose.data.getD 0 [] = m.col0 := by
  unfold Matrix.transpose Matrix.ofFn Matrix.col0
  rw [hc]
  rfl


/-- Soundness of the forward-pass loop on a well-formed network: starting at
transition i with a well-shaped column, the loop succeeds, appends one cached
column per remaining transition, and consecutive cached columns satisfy the
forward step relation. -/
lemma ffLoop_sound (φ : ℤ → ℤ) (net : Network) (h : net.WF) :
    ∀ n i cur acc, i + n = net.layers.length - 1 →
      ColShape net.layers i cur →
      ∃ fin rest,
        ffLoop φ net.weights net.biases i n cur acc = some (fin, acc ++ rest) ∧
        rest.length = n ∧
        fin = (cur :: rest).getD n Matrix.empty ∧
        (∀ j, j ≤ n → ColShape net.layers (i + j) ((cur :: rest).getD j Matrix.empty)) ∧
        (∀ j, j < n → StepRel φ net.weights net.biases (i + j)
          ((cur :: rest).getD j Matrix.empty) ((cur :: rest).getD (j + 1) Matrix.empty)) := by
  obtain ⟨hL, hWlen, hBlen, hshapes⟩ := h
  intro n
  induction n with
  | zero =>
    intro i cur acc _ hcur
    refine ⟨cur, [], ?_, rfl, rfl, ?_, ?_⟩
    · simp [ffLoop]
    · intro j hj
      interval_cases j
      simpa using hcur
    · intro j hj
      omega
  | succ n ih =>
    intro i cur acc hin hcur
    obtain ⟨hcr, hcc, hcwf⟩ := hcur
    have hi : i < net.layers.length - 1 := by omega
    obtain ⟨hwr, hwc, hwwf, hbr, hbc, hbwf⟩ := hshapes i hi
    have hiw : i < net.weights.length := by omega
    have hib : i < net.biases.length := by omega
    have hw? : net.weights[i]? = some (net.weights.getD i Matrix.empty) :=
      getElem?_eq_getD net.weights Matrix.empty hiw
    have hb? : net.biases[i]? = some (net.biases.getD i Matrix.empty) :=
      getElem?_eq_getD net.biases Matrix.empty hib
    have hmul : (net.weights.getD i Matrix.empty).mul cur
        = some ((net.weights.getD i Matrix.empty).mulCore cur) :=
      Matrix.mul_eq_some (by rw [hwc, hcr])
    have hadd : ((net.weights.getD i Matrix.empty).mulCore cur).add
          (net.biases.getD i Matrix.empty)
        = some (((net.weights.getD i Matrix.empty).mulCore cur).addCore
          (net.biases.getD i Matrix.empty)) := by
      refine Matrix.add_eq_some ?_ ?_
      · show (net.weights.getD i Matrix.empty).rows = _
        rw [hwr, hbr]
      · show cur.cols = _
        rw [hcc, hbc]
    set c := ((((net.weights.getD i Matrix.empty).mulCore cur).addCore
      (net.biases.getD i Matrix.empty)).map φ) with hc
    have hstep0 : StepRel φ net.weights net.biases i cur c :=
      ⟨_, _, _, _, hw?, hb?, hmul, hadd, rfl⟩
    have hcshape : ColShape net.layers (i + 1) c := by
      refine ⟨?_, ?_, ?_⟩
      · show (net.weights.getD i Matrix.empty).rows = _
        exact hwr
      · show cur.cols = 1
        exact hcc
      · exact Matrix.map_wf (Matrix.ofFn_wf _ _ _) φ
    obtain ⟨fin, rest', heq, hlen', hfin', hcs', hsr'⟩ :=
      ih (i + 1) c (acc ++ [c]) (by omega) hcshape
    refine ⟨fin, c :: rest', ?_, by simp [hlen'], hfin', ?_, ?_⟩
    · show ffLoop φ net.weights net.biases i (n + 1) cur acc = _
      rw [ffLoop]
      rw [hw?]
      show ((net.weights.getD i Matrix.empty).mul cur).bind _ = _
      rw [hmul]
      show net.biases[i]?.bind _ = _
      rw [hb?]
      show (((net.weights.getD i Matrix.empty).mulCore cur).add _).bind _ = _
      rw [hadd]
      show ffLoop φ net.weights net.biases (i + 1) n c (acc ++ [c]) = _
      rw [heq]
      rw [List.append_assoc]
      rfl
    · intro j hj
      match j with
      | 0 =>
        simpa using ⟨hcr, hcc, hcwf⟩
      | Nat.succ k =>
        have hk : k ≤ n := by omega
        have hidx : i + (k + 1) = (i + 1) + k := by omega
        rw [hidx, getD_cons_succ]
        exact hcs' k hk
    · intro j hj
      match j with
      | 0 =>
        simpa using hstep0
      | Nat.succ k =>
        have hk : k < n := by omega
        have hidx : i + (k + 1) = (i + 1) + k := by omega
        rw [hidx, getD_cons_succ, getD_cons_succ]
        exact hsr' k hk


/-- C1: for every well-formed network and every input whose length is the
first layer size, feed_forward succeeds, caches the input as a column vector
in position 0, fills the cache with exactly layers.length column vectors of
heights layers at 0, 1, ..., makes each cached column i+1 the elementwise
activation of weights at i times column i plus biases at i, and returns the
entries of the final cached column as a sequence whose length is the last
layer size. -/
theorem feed_forward_spec (φ : ℤ → ℤ) (net : Network) (inputs : List ℤ)
    (h : net.WF) (hlen : inputs.length = net.layers.getD 0 0) :
    ∃ out net', Network.feed_forward φ net inputs = some (out, net') ∧
      net'.data.length = net.layers.length ∧
      net'.data.getD 0 Matrix.empty = (Matrix.row inputs).transpose ∧
      (∀ i, i < net.layers.length →
        ColShape net.layers i (net'.data.getD i Matrix.empty)) ∧
      (∀ i, i < net.layers.length - 1 → StepRel φ net.weights net.biases i
        (net'.data.getD i Matrix.empty) (net'.data.getD (i + 1) Matrix.empty)) ∧
      out = Matrix.col0 (net'.data.getD (net.layers.length - 1) Matrix.empty) ∧
      out.length = net.layers.getD (net.layers.length - 1) 0 := by
  have hL : 2 ≤ net.layers.length := h.1
  have hhead : net.layers.head? = some (net.layers.getD 0 0) := by
    cases hly : net.layers with
    | nil =>
      rw [hly] at hL
      simp at hL
    | cons a t =>
      rfl
  have hcur : ColShape net.layers 0 ((Matrix.row inputs).transpose) := by
    refine ⟨?_, rfl, Matrix.ofFn_wf _ _ _⟩
    show (Matrix.row inputs).cols = _
    rw [show (Matrix.row inputs).cols = inputs.length from rfl, hlen]
  obtain ⟨fin, rest, heq, hrlen, hfin, hcs, hsr⟩ :=
    ffLoop_sound φ net h (net.layers.length - 1) 0 ((Matrix.row inputs).transpose)
      [(Matrix.row inputs).transpose] (by omega) hcur
  have hffeq : Network.feed_forward φ net inputs =
      some (fin.transpose.data.getD 0 [],
        net.withData ((Matrix.row inputs).transpose :: rest)) := by
    rw [Network.feed_forward, hhead]
    simp only [if_pos hlen]
    rw [heq]
    rfl
  have hfc : fin.cols = 1 := by
    rw [hfin]
    exact (hcs (net.layers.length - 1) le_rfl).2.1
  have hfr : fin.rows = net.layers.getD (net.layers.length - 1) 0 := by
    rw [hfin]
    have := (hcs (net.layers.length - 1) le_rfl).1
    simpa using this
  refine ⟨fin.transpose.data.getD 0 [],
    net.withData ((Matrix.row inputs).transpose :: rest), hffeq, ?_, rfl, ?_, ?_, ?_, ?_⟩
  · show ((Matrix.row inputs).transpose :: rest).length = _
    simp only [List.length_cons, hrlen]
    omega
  · intro i hi
    have hi' : i ≤ net.layers.length - 1 := by omega
    simpa [Network.withData] using hcs i hi'
  · intro i hi
    simpa [Network.withData] using hsr i (by omega)
  · show fin.transpose.data.getD 0 [] = _
    rw [Matrix.transpose_row0 hfc, hfin]
    rfl
  · show (fin.transpose.data.getD 0 []).length = _
    rw [Matrix.transpose_row0 hfc, Matrix.col0_length, hfr]

/-- C1 witness: the 3-4-2 network on the 3-element input [1, 2, 3] — a
2-element output and a 3-entry cache sized 3, 4, 2. -/
theorem feed_forward_spec_witness :
    ∃ out net', Network.feed_forward actId net342 [1, 2, 3] = some (out, net') ∧
      net'.data.length = net342.layers.length ∧
      net'.data.getD 0 Matrix.empty = (Matrix.row [1, 2, 3]).transpose ∧
      (∀ i, i < net342.layers.length →
        ColShape net342.layers i (net'.data.getD i Matrix.empty)) ∧
      (∀ i, i < net342.layers.length - 1 → StepRel actId net342.weights net342.biases i
        (net'.data.getD i Matrix.empty) (net'.data.getD (i + 1) Matrix.empty)) ∧
      out = Matrix.col0 (net'.data.getD (net342.layers.length - 1) Matrix.empty) ∧
      out.length = net342.layers.getD (net342.layers.length - 1) 0 :=
  feed_forward_spec actId net342 [1, 2, 3] (by decide) (by decide)


/-- feed_forward ignores the previous contents of the activation cache: it is
determined by layers, weights and biases alone, and the cache it writes
overwrites whatever was there. -/
lemma feed_forward_withData (φ : ℤ → ℤ) (net : Network) (d : List Matrix)
    (inputs : List ℤ) :
    Network.feed_forward φ (net.withData d) inputs =
      Network.feed_forward φ net inputs := rfl

/-- C6: on a well-formed network, feed_forward fails (none, the
"Invalid number of inputs" panic of the original) if and only if the input
length differs from the first layer size; in the failing case no output value
is produced. -/
theorem feed_forward_input_check (φ : ℤ → ℤ) (net : Network) (inputs : List ℤ)
    (h : net.WF) :
    Network.feed_forward φ net inputs = none ↔
      inputs.length ≠ net.layers.getD 0 0 := by
  have hL : 2 ≤ net.layers.length := h.1
  have hhead : net.layers.head? = some (net.layers.getD 0 0) := by
    cases hly : net.layers with
    | nil =>
      rw [hly] at hL
      simp at hL
    | cons a t =>
      rfl
  by_cases hlen : inputs.length = net.layers.getD 0 0
  · have hcur : ColShape net.layers 0 ((Matrix.row inputs).transpose) := by
      refine ⟨?_, rfl, Matrix.ofFn_wf _ _ _⟩
      show (Matrix.row inputs).cols = _
      rw [show (Matrix.row inputs).cols = inputs.length from rfl, hlen]
    obtain ⟨fin, rest, heq, -, -, -, -⟩ :=
      ffLoop_sound φ net h (net.layers.length - 1) 0 ((Matrix.row inputs).transpose)
        [(Matrix.row inputs).transpose] (by omega) hcur
    constructor
    · intro hnone
      rw [Network.feed_forward, hhead] at hnone
      simp only [if_pos hlen] at hnone
      rw [heq] at hnone
      exact Option.noConfusion hnone
    · intro hne
      exact absurd hlen hne
  · constructor
    · intro _
      exact hlen
    · intro _
      rw [Network.feed_forward, hhead]
      simp only [if_neg hlen]

/-- C6 witness: 2 inputs on the 3-4-2 network fail, and 3 is the only
accepted length. -/
theorem feed_forward_input_check_witness :
    Network.feed_forward actId net342 [1, 2] = none ↔
      ([1, 2] : List ℤ).length ≠ net342.layers.getD 0 0 :=
  feed_forward_input_check actId net342 [1, 2] (by decide)

/-- C9: a successful feed_forward determines its own fixed point — calling
feed_forward again on the returned network with the same input returns the
same output and the same network state: the cache overwrite is the only
mutation and the previous cache never influences the result. -/
theorem feed_forward_idempotent (φ : ℤ → ℤ) (net : Network) (inputs out : List ℤ)
    (net' : Network) (h : Network.feed_forward φ net inputs = some (out, net')) :
    Network.feed_forward φ net' inputs = some (out, net') := by
  rw [Network.feed_forward] at h
  cases hh : net.layers.head? with
  | none =>
    rw [hh] at h
    exact Option.noConfusion h
  | some l0 =>
    rw [hh] at h
    by_cases hlen : inputs.length = l0
    · simp only [if_pos hlen] at h
      cases hff : ffLoop φ net.weights net.biases 0 (net.layers.length - 1)
          ((Matrix.row inputs).transpose) [(Matrix.row inputs).transpose] with
      | none =>
        rw [hff] at h
        exact Option.noConfusion h
      | some p =>
        rw [hff] at h
        obtain ⟨fin, dat⟩ := p
        simp only [Option.some.injEq, Prod.mk.injEq] at h
        obtain ⟨hout, hnet⟩ := h
        subst hnet
        rw [feed_forward_withData]
        rw [Network.feed_forward, hh]
        simp only [if_pos hlen]
        rw [hff]
        show some (fin.transpose.data.getD 0 [], net.withData dat) = _
        rw [hout]
    · simp only [if_neg hlen] at h
      exact Option.noConfusion h

/-- C9 witness: repeating the forward pass of net342 on [1, 2, 3] returns the
same output and state. -/
theorem feed_forward_idempotent_witness :
    Network.feed_forward actId net342c [1, 2, 3] = some ([0, 0], net342c) :=
  feed_forward_idempotent actId net342 [1, 2, 3] [0, 0] net342c (by decide)

/-- C5: saving a network and loading the result yields exactly the original
layers, learning rate, weight matrices and bias matrices, with the
activation cache reinitialized empty. -/
theorem save_load_roundtrip (net : Network) :
    (Network.load (Network.save net)).layers = net.layers ∧
    (Network.load (Network.save net)).learning_rate = net.learning_rate ∧
    (Network.load (Network.save net)).weights = net.weights ∧
    (Network.load (Network.save net)).biases = net.biases ∧
    (Network.load (Network.save net)).data = [] :=
  ⟨rfl, rfl, rfl, rfl, rfl⟩

/-- C4 counterexample: a single-layer topology with a negative learning rate
is accepted — Network::new returns a network, it does not fail with
InvalidTopology (no such failure exists in the code). -/
theorem new_accepts_invalid_topology :
    (Network.new [1] (-1) srcZero).isSome = true := by decide

/-- C4 amended: construction performs no validation.  It fails only on the
empty layer list (an index underflow panic, not an InvalidTopology error);
for every nonempty layer list — including single-layer lists — and every
learning rate — including non-positive ones — it returns a network carrying
the given layers and learning rate, an empty cache, and one random weight
matrix of shape (layers at i+1, layers at i) plus one random bias matrix of
shape (layers at i+1, 1) per adjacent pair. -/
theorem new_no_validation (layers : List Nat) (lr : ℤ) (src : Nat → Nat → ℤ)
    (h : layers ≠ []) :
    ∃ n, Network.new layers lr src = some n ∧
      n.layers = layers ∧ n.learning_rate = lr ∧ n.data = [] ∧
      n.weights.length = layers.length - 1 ∧
      n.biases.length = layers.length - 1 ∧
      ∀ i, i < layers.length - 1 →
        (n.weights.getD i Matrix.empty).rows = layers.getD (i + 1) 0 ∧
        (n.weights.getD i Matrix.empty).cols = layers.getD i 0 ∧
        (n.biases.getD i Matrix.empty).rows = layers.getD (i + 1) 0 ∧
        (n.biases.getD i Matrix.empty).cols = 1 := by
  have hne : ¬ (layers.isEmpty = true) := by
    cases layers with
    | nil => exact absurd rfl h
    | cons a t => simp
  have heq : Network.new layers lr src = some ⟨layers,
      (List.range (layers.length - 1)).map fun i =>
        Matrix.random (layers.getD (i + 1) 0) (layers.getD i 0) (src (2 * i)),
      (List.range (layers.length - 1)).map fun i =>
        Matrix.random (layers.getD (i + 1) 0) 1 (src (2 * i + 1)),
      [], lr⟩ := by
    unfold Network.new
    rw [if_neg hne]
  refine ⟨_, heq, rfl, rfl, rfl, by simp, by simp, ?_⟩
  intro i hi
  refine ⟨?_, ?_, ?_, ?_⟩
  · rw [getD_map_range _ _ hi]
    rfl
  · rw [getD_map_range _ _ hi]
    rfl
  · rw [getD_map_range _ _ hi]
    rfl
  · rw [getD_map_range _ _ hi]
    rfl

/-- C4 witness: the amended statement at the topology [3, 4, 2] with
learning rate 2. -/
theorem new_no_validation_witness :
    ∃ n, Network.new [3, 4, 2] 2 srcZero = some n ∧
      n.layers = [3, 4, 2] ∧ n.learning_rate = 2 ∧ n.data = [] ∧
      n.weights.length = [3, 4, 2].length - 1 ∧
      n.biases.length = [3, 4, 2].length - 1 ∧
      ∀ i, i < [3, 4, 2].length - 1 →
        (n.weights.getD i Matrix.empty).rows = [3, 4, 2].getD (i + 1) 0 ∧
        (n.weights.getD i Matrix.empty).cols = [3, 4, 2].getD i 0 ∧
        (n.biases.getD i Matrix.empty).rows = [3, 4, 2].getD (i + 1) 0 ∧
        (n.biases.getD i Matrix.empty).cols = 1 :=
  new_no_validation [3, 4, 2] 2 srcZero (by decide)

/-- C2 failing input: on the well-formed 1-2 network netC2 whose cache holds
a valid forward pass, back_propogate with outputs and targets of the
last-layer size 2 aborts with a shape-mismatch panic (none here) instead of
performing the stated updates: outputs are wrapped as a 1 x 2 row — without
the transpose feed_forward applies — so the outer product
gradient * transpose(data at 0) multiplies a 1 x 2 by a 1 x 1 matrix. -/
theorem back_propogate_shape_bug :
    Network.back_propogate actId netC2 [0, 0] [0, 0] = none := by decide

/-- C3 counterexample: on netC3 (outputs [1], targets [3]) the code yields
first-layer weight 7, while propagating the error through the pre-update
weights — as the claim states — would yield 3: the claim is false on the
code, which reads weights at i after the line-129 update. -/
theorem back_propogate_pre_update_cex :
    Network.back_propogate actId netC3 [1] [3] =
      some ⟨[1, 1, 1], [⟨1, 1, [[7]]⟩, ⟨1, 1, [[3]]⟩],
        [⟨1, 1, [[6]]⟩, ⟨1, 1, [[2]]⟩],
        [⟨1, 1, [[1]]⟩, ⟨1, 1, [[1]]⟩, ⟨1, 1, [[1]]⟩], 1⟩ ∧
    backPropogateSpec false actId netC3 [1] [3] =
      some ⟨[1, 1, 1], [⟨1, 1, [[3]]⟩, ⟨1, 1, [[3]]⟩],
        [⟨1, 1, [[2]]⟩, ⟨1, 1, [[2]]⟩],
        [⟨1, 1, [[1]]⟩, ⟨1, 1, [[1]]⟩, ⟨1, 1, [[1]]⟩], 1⟩ ∧
    Network.back_propogate actId netC3 [1] [3] ≠
      backPropogateSpec false actId netC3 [1] [3] := by
  refine ⟨by decide, by decide, by decide⟩

/-- The code's backward loop coincides with the spec's step 1-5 loop with
step 4 propagating through the post-update weight matrix. -/
lemma bpLoop_eq_spec_post (φd : ℤ → ℤ) (lr : ℤ) (cache : List Matrix) :
    ∀ n ws bs errors gradients,
      bpLoop φd lr cache n ws bs errors gradients =
        bpLoopSpec true φd lr cache n ws bs errors gradients := by
  intro n
  induction n with
  | zero =>
    intro ws bs e g
    rfl
  | succ n ih =>
    intro ws bs e g
    simp only [bpLoop, bpLoopSpec, ih]
    rfl

/-- C3 amended: in every back_propogate call the backward error propagation
uses the post-update value of weights at i — the matrix already incremented
by that iteration's outer-product update — i.e. the code implements the
post-update variant of the spec's backward pass for all inputs. -/
theorem back_propogate_post_update (φd : ℤ → ℤ) (net : Network)
    (outputs targets : List ℤ) :
    Network.back_propogate φd net outputs targets =
      backPropogateSpec true φd net outputs targets := by
  unfold Network.back_propogate backPropogateSpec
  simp only [bpLoop_eq_spec_post]




/-- The logging guard never fails: when epochs is at least 100 — the only
case in which the remainder is computed — the divisor epochs / 100 is
nonzero. -/
lemma trainLogGuard_isSome (epochs i : Nat) : (trainLogGuard epochs i).isSome := by
  unfold trainLogGuard
  by_cases h1 : epochs < 100
  · rw [if_pos h1]
    rfl
  · rw [if_neg h1]
    have hpos : 0 < epochs / 100 := Nat.div_pos (by omega) (by omega)
    rw [if_neg (by omega)]
    rfl

/-- Folding an index-based step over the positions of two equal-length lists
is folding the pair-based step over their zip: every index access is in
bounds. -/
lemma foldlM_idx_zip {α β γ : Type} (G1 : Network → α → Option γ)
    (G2 : γ → β → Option Network) :
    ∀ (as : List α) (bs : List β), as.length = bs.length → ∀ net,
      (List.range as.length).foldlM (fun s j => do
          let a ← as[j]?
          let r ← G1 s a
          let b ← bs[j]?
          G2 r b) net =
      (as.zip bs).foldlM (fun s p => do
          let r ← G1 s p.1
          G2 r p.2) net := by
  intro as
  induction as with
  | nil =>
    intro bs h net
    cases bs with
    | nil => rfl
    | cons b bs => exact absurd h (by simp)
  | cons a as ih =>
    intro bs h net
    cases bs with
    | nil => exact absurd h (by simp)
    | cons b bs =>
      have hlen : as.length = bs.length := by simpa using h
      show (List.range (as.length + 1)).foldlM _ net = _
      rw [List.range_succ_eq_map, List.foldlM_cons, List.zip_cons_cons,
        List.foldlM_cons]
      simp only [List.foldlM_map, List.getElem?_cons_zero, Option.some_bind,
        List.getElem?_cons_succ]
      congr 1
      funext s
      exact ih bs hlen s

/-- With equal batch lengths, the index-based epoch of the code coincides
with the zip-based epoch of the spec. -/
lemma trainEpoch_eq_zip (φ φd : ℤ → ℤ) (inputs targets : List (List ℤ))
    (h : inputs.length = targets.length) (net : Network) :
    trainEpoch φ φd inputs targets net = trainEpochZip φ φd inputs targets net :=
  foldlM_idx_zip (fun s a => Network.feed_forward φ s a)
    (fun r b => Network.back_propogate φd r.2 r.1 b) inputs targets h net

/-- Iterating an Option-level epoch on none stays none. -/
lemma iterate_bind_none (f : Network → Option Network) (n : Nat) :
    (fun o => o >>= f)^[n] none = none := by
  induction n with
  | zero => rfl
  | succ n ih =>
    rw [Function.iterate_succ_apply]
    exact ih

/-- The epoch loop is the n-fold iteration of a single epoch, independently
of the logging counter: the guard always succeeds and the epochs run
strictly in sequence. -/
lemma trainLoop_eq_iterate (φ φd : ℤ → ℤ) (inputs targets : List (List ℤ))
    (epochs : Nat) :
    ∀ n i net, trainLoop φ φd inputs targets epochs i n net =
      (fun o => o >>= trainEpoch φ φd inputs targets)^[n] (some net) := by
  intro n
  induction n with
  | zero =>
    intro i net
    rfl
  | succ n ih =>
    intro i net
    rw [Function.iterate_succ_apply]
    obtain ⟨b, hb⟩ := Option.isSome_iff_exists.mp (trainLogGuard_isSome epochs i)
    rw [trainLoop, hb]
    show (trainEpoch φ φd inputs targets net) >>= _ = _
    cases he : trainEpoch φ φd inputs targets net with
    | none =>
      show (none : Option Network) = _
      rw [show (some net >>= trainEpoch φ φd inputs targets) =
        trainEpoch φ φd inputs targets net from rfl, he]
      exact (iterate_bind_none _ n).symm
    | some net₁ =>
      rw [show (some net >>= trainEpoch φ φd inputs targets) =
        trainEpoch φ φd inputs targets net from rfl, he]
      exact ih (i + 1) net₁

/-- C7: train runs exactly epochs sequential full passes; each pass visits
the examples in batch order, feeding forward and then back-propagating with
the matching target; there is no shuffling, no early stopping and no loss
threshold — the result is precisely the epochs-fold iteration of the
in-order epoch over the zipped batches. -/
theorem train_epoch_structure (φ φd : ℤ → ℤ) (net : Network)
    (inputs targets : List (List ℤ)) (epochs : Nat)
    (h : inputs.length = targets.length) :
    Network.train φ φd net inputs targets epochs =
      (fun o => o >>= trainEpochZip φ φd inputs targets)^[epochs] (some net) := by
  unfold Network.train
  rw [trainLoop_eq_iterate]
  have hfun : (fun o => o >>= trainEpoch φ φd inputs targets) =
      (fun o => o >>= trainEpochZip φ φd inputs targets) := by
    funext o
    cases o with
    | none => rfl
    | some net₁ =>
      show trainEpoch φ φd inputs targets net₁ = trainEpochZip φ φd inputs targets net₁
      exact trainEpoch_eq_zip φ φd inputs targets h net₁
  rw [hfun]

/-- C7 witness: one epoch of training the 1-1 network on a single example. -/
theorem train_epoch_structure_witness :
    Network.train actId actId net11 [[1]] [[2]] 1 =
      (fun o => o >>= trainEpochZip actId actId [[1]] [[2]])^[1] (some net11) :=
  train_epoch_structure actId actId net11 [[1]] [[2]] 1 (by decide)

/-- C10: under the precondition that the batches have equal length, every
index access of train is in bounds (inputs at j and targets at j are some
for every j below the batch length), and the logging guard never divides by
zero — the remainder by epochs / 100 is computed only when epochs is at
least 100, where the divisor is positive.  train performs no equal-length
check of its own: the bound on targets comes only from the hypothesis. -/
theorem train_safety (inputs targets : List (List ℤ)) (epochs : Nat)
    (h : inputs.length = targets.length) :
    (∀ i, (trainLogGuard epochs i).isSome) ∧
    (∀ j, j < inputs.length → (inputs[j]?).isSome ∧ (targets[j]?).isSome) := by
  refine ⟨fun i => trainLogGuard_isSome epochs i, ?_⟩
  intro j hj
  have hj' : j < targets.length := by omega
  constructor
  · rw [List.getElem?_eq_getElem hj]
    rfl
  · rw [List.getElem?_eq_getElem hj']
    rfl

/-- C10 witness: an epoch count of 250 (exercising the guarded branch) and a
one-example batch. -/
theorem train_safety_witness :
    (∀ i, (trainLogGuard 250 i).isSome) ∧
    (∀ j, j < ([[1]] : List (List ℤ)).length →
      ((([[1]] : List (List ℤ)))[j]?).isSome ∧
      ((([[2]] : List (List ℤ)))[j]?).isSome) :=
  train_safety [[1]] [[2]] 250 (by decide)


lemma Matrix.addCore_rows (a b : Matrix) : (a.addCore b).rows = a.rows := rfl

lemma Matrix.addCore_cols (a b : Matrix) : (a.addCore b).cols = a.cols := rfl

lemma Matrix.addCore_wf (a b : Matrix) : (a.addCore b).WF := Matrix.ofFn_wf _ _ _

/-- Inversion for the guarded elementwise add: a successful add produced the
entrywise sum and the operands had identical shape. -/
lemma Matrix.add_inv {a b c : Matrix} (h : a.add b = some c) :
    c = a.addCore b ∧ a.rows = b.rows ∧ a.cols = b.cols := by
  unfold Matrix.add at h
  by_cases hc : a.rows = b.rows ∧ a.cols = b.cols
  · rw [if_pos hc] at h
    exact ⟨(Option.some.inj h).symm, hc.1, hc.2⟩
  · rw [if_neg hc] at h
    exact Option.noConfusion h

lemma ShapePreserved.refl (net : Network) : ShapePreserved net net :=
  ⟨rfl, rfl, rfl, fun _ _ => ⟨rfl, rfl⟩, fun _ _ => ⟨rfl, rfl⟩⟩

lemma ShapePreserved.trans {a b c : Network} (h1 : ShapePreserved a b)
    (h2 : ShapePreserved b c) : ShapePreserved a c := by
  obtain ⟨l1, w1, b1, hw1, hb1⟩ := h1
  obtain ⟨l2, w2, b2, hw2, hb2⟩ := h2
  refine ⟨l2.trans l1, w2.trans w1, b2.trans b1, ?_, ?_⟩
  · intro i hi
    have hi2 : i < b.weights.length := by omega
    obtain ⟨r2, c2⟩ := hw2 i hi2
    obtain ⟨r1, c1⟩ := hw1 i hi
    exact ⟨r2.trans r1, c2.trans c1⟩
  · intro i hi
    have hi2 : i < b.biases.length := by omega
    obtain ⟨r2, c2⟩ := hb2 i hi2
    obtain ⟨r1, c1⟩ := hb1 i hi
    exact ⟨r2.trans r1, c2.trans c1⟩

lemma WF_of_fields {a b : Network} (hl : b.layers = a.layers)
    (hw : b.weights = a.weights) (hb : b.biases = a.biases) (h : a.WF) : b.WF := by
  unfold Network.WF at h ⊢
  rw [hl, hw, hb]
  exact h

lemma ShapePreserved_of_fields {a b : Network} (hl : b.layers = a.layers)
    (hw : b.weights = a.weights) (hb : b.biases = a.biases) :
    ShapePreserved a b := by
  refine ⟨hl, by rw [hw], by rw [hb], ?_, ?_⟩
  · intro i hi
    rw [hw]
    exact ⟨rfl, rfl⟩
  · intro i hi
    rw [hb]
    exact ⟨rfl, rfl⟩

/-- A successful forward pass only replaces the activation cache: layers,
weights and biases of the returned network are those of the argument. -/
lemma ff_fields (φ : ℤ → ℤ) (net : Network) (inputs : List ℤ)
    (r : List ℤ × Network) (h : Network.feed_forward φ net inputs = some r) :
    r.2.layers = net.layers ∧ r.2.weights = net.weights ∧ r.2.biases = net.biases := by
  rw [Network.feed_forward] at h
  cases hh : net.layers.head? with
  | none =>
    rw [hh] at h
    exact Option.noConfusion h
  | some l0 =>
    rw [hh] at h
    by_cases hlen : inputs.length = l0
    · simp only [if_pos hlen] at h
      cases hff : ffLoop φ net.weights net.biases 0 (net.layers.length - 1)
          ((Matrix.row inputs).transpose) [(Matrix.row inputs).transpose] with
      | none =>
        rw [hff] at h
        exact Option.noConfusion h
      | some p =>
        rw [hff] at h
        obtain ⟨fin, dat⟩ := p
        have h' : (fin.transpose.data.getD 0 [], net.withData dat) = r :=
          Option.some.inj h
        subst h'
        exact ⟨rfl, rfl, rfl⟩
    · simp only [if_neg hlen] at h
      exact Option.noConfusion h

/-- Every successful pass of the backward loop keeps the number and the
shapes of the weight and bias matrices, and keeps them well-formed. -/
lemma bpLoop_shapes (φd : ℤ → ℤ) (lr : ℤ) (cache : List Matrix) :
    ∀ n ws bs errors gradients ws' bs',
      bpLoop φd lr cache n ws bs errors gradients = some (ws', bs') →
      ws'.length = ws.length ∧ bs'.length = bs.length ∧
      (∀ i, i < ws.length →
        (ws'.getD i Matrix.empty).rows = (ws.getD i Matrix.empty).rows ∧
        (ws'.getD i Matrix.empty).cols = (ws.getD i Matrix.empty).cols ∧
        ((ws.getD i Matrix.empty).WF → (ws'.getD i Matrix.empty).WF)) ∧
      (∀ i, i < bs.length →
        (bs'.getD i Matrix.empty).rows = (bs.getD i Matrix.empty).rows ∧
        (bs'.getD i Matrix.empty).cols = (bs.getD i Matrix.empty).cols ∧
        ((bs.getD i Matrix.empty).WF → (bs'.getD i Matrix.empty).WF)) := by
  intro n
  induction n with
  | zero =>
    intro ws bs e g ws' bs' h
    simp only [bpLoop, Option.some.injEq, Prod.mk.injEq] at h
    obtain ⟨h1, h2⟩ := h
    subst h1
    subst h2
    exact ⟨rfl, rfl, fun i _ => ⟨rfl, rfl, fun hw => hw⟩,
      fun i _ => ⟨rfl, rfl, fun hb => hb⟩⟩
  | succ n ih =>
    intro ws bs e g ws' bs' h
    rw [bpLoop] at h
    obtain ⟨ge, hge, h⟩ := Option.bind_eq_some.mp h
    obtain ⟨d, hd, h⟩ := Option.bind_eq_some.mp h
    obtain ⟨w, hw, h⟩ := Option.bind_eq_some.mp h
    obtain ⟨outer, houter, h⟩ := Option.bind_eq_some.mp h
    obtain ⟨w', haddw, h⟩ := Option.bind_eq_some.mp h
    obtain ⟨b, hb, h⟩ := Option.bind_eq_some.mp h
    obtain ⟨b', haddb, h⟩ := Option.bind_eq_some.mp h
    obtain ⟨e', herr, h⟩ := Option.bind_eq_some.mp h
    have hn : n < ws.length := by
      by_contra hcon
      rw [List.getElem?_eq_none (by omega)] at hw
      exact Option.noConfusion hw
    have hnb : n < bs.length := by
      by_contra hcon
      rw [List.getElem?_eq_none (by omega)] at hb
      exact Option.noConfusion hb
    have hwv : ws.getD n Matrix.empty = w := by
      rw [getElem?_eq_getD ws Matrix.empty hn] at hw
      exact Option.some.inj hw
    have hbv : bs.getD n Matrix.empty = b := by
      rw [getElem?_eq_getD bs Matrix.empty hnb] at hb
      exact Option.some.inj hb
    obtain ⟨hw'eq, -, -⟩ := Matrix.add_inv haddw
    obtain ⟨hb'eq, -, -⟩ := Matrix.add_inv haddb
    obtain ⟨hl1, hl2, hws, hbs⟩ :=
      ih (ws.set n w') (bs.set n b') e' (d.map φd) ws' bs' h
    refine ⟨by rw [hl1, List.length_set], by rw [hl2, List.length_set], ?_, ?_⟩
    · intro i hi
      have hi' : i < (ws.set n w').length := by
        rw [List.length_set]
        exact hi
      obtain ⟨hr, hc, hwf⟩ := hws i hi'
      by_cases hin : i = n
      · subst hin
        have hset : (ws.set i w').getD i Matrix.empty = w' := by
          rw [List.getD_eq_getElem?_getD, List.getElem?_set_eq_of_lt _ hn]
          rfl
        rw [hset] at hr hc hwf
        refine ⟨?_, ?_, ?_⟩
        · rw [hr, hw'eq, ← hwv]
          rfl
        · rw [hc, hw'eq, ← hwv]
          rfl
        · intro _
          refine hwf ?_
          rw [hw'eq]
          exact Matrix.addCore_wf w outer
      · have hset : (ws.set n w').getD i Matrix.empty = ws.getD i Matrix.empty := by
          rw [List.getD_eq_getElem?_getD, List.getElem?_set_ne (by omega),
            ← List.getD_eq_getElem?_getD]
        rw [hset] at hr hc hwf
        exact ⟨hr, hc, hwf⟩
    · intro i hi
      have hi' : i < (bs.set n b').length := by
        rw [List.length_set]
        exact hi
      obtain ⟨hr, hc, hwf⟩ := hbs i hi'
      by_cases hin : i = n
      · subst hin
        have hset : (bs.set i b').getD i Matrix.empty = b' := by
          rw [List.getD_eq_getElem?_getD, List.getElem?_set_eq_of_lt _ hnb]
          rfl
        rw [hset] at hr hc hwf
        refine ⟨?_, ?_, ?_⟩
        · rw [hr, hb'eq, ← hbv]
          rfl
        · rw [hc, hb'eq, ← hbv]
          rfl
        · intro _
          refine hwf ?_
          rw [hb'eq]
          exact Matrix.addCore_wf b _
      · have hset : (bs.set n b').getD i Matrix.empty = bs.getD i Matrix.empty := by
          rw [List.getD_eq_getElem?_getD, List.getElem?_set_ne (by omega),
            ← List.getD_eq_getElem?_getD]
        rw [hset] at hr hc hwf
        exact ⟨hr, hc, hwf⟩


lemma withParams_layers (net : Network) (ws bs : List Matrix) :
    (net.withParams ws bs).layers = net.layers := rfl

lemma withParams_weights (net : Network) (ws bs : List Matrix) :
    (net.withParams ws bs).weights = ws := rfl

lemma withParams_biases (net : Network) (ws bs : List Matrix) :
    (net.withParams ws bs).biases = bs := rfl

/-- Replacing the parameter matrices of a well-formed network by matrices of
the same count and shapes keeps it well-formed and shape-preserved. -/
lemma WF_withParams {net : Network} (h : net.WF) {ws' bs' : List Matrix}
    (hl1 : ws'.length = net.weights.length) (hl2 : bs'.length = net.biases.length)
    (hws : ∀ i, i < net.weights.length →
      (ws'.getD i Matrix.empty).rows = (net.weights.getD i Matrix.empty).rows ∧
      (ws'.getD i Matrix.empty).cols = (net.weights.getD i Matrix.empty).cols ∧
      ((net.weights.getD i Matrix.empty).WF → (ws'.getD i Matrix.empty).WF))
    (hbs : ∀ i, i < net.biases.length →
      (bs'.getD i Matrix.empty).rows = (net.biases.getD i Matrix.empty).rows ∧
      (bs'.getD i Matrix.empty).cols = (net.biases.getD i Matrix.empty).cols ∧
      ((net.biases.getD i Matrix.empty).WF → (bs'.getD i Matrix.empty).WF)) :
    (net.withParams ws' bs').WF ∧ ShapePreserved net (net.withParams ws' bs') := by
  obtain ⟨hL, hWlen, hBlen, hShapes⟩ := h
  constructor
  · unfold Network.WF
    simp only [withParams_layers, withParams_weights, withParams_biases]
    refine ⟨hL, by omega, by omega, ?_⟩
    intro i hi
    have hiw : i < net.weights.length := by omega
    have hib : i < net.biases.length := by omega
    obtain ⟨hr, hc, hwf⟩ := hws i hiw
    obtain ⟨hr2, hc2, hwf2⟩ := hbs i hib
    obtain ⟨h1, h2, h3, h4, h5, h6⟩ := hShapes i hi
    exact ⟨hr.trans h1, hc.trans h2, hwf h3, hr2.trans h4, hc2.trans h5, hwf2 h6⟩
  · refine ⟨rfl, hl1, hl2, ?_, ?_⟩
    · intro i hi
      obtain ⟨hr, hc, -⟩ := hws i hi
      exact ⟨hr, hc⟩
    · intro i hi
      obtain ⟨hr, hc, -⟩ := hbs i hi
      exact ⟨hr, hc⟩

/-- A successful backward pass keeps the invariant and all shapes. -/
lemma bp_preserves (φd : ℤ → ℤ) {net : Network} (h : net.WF)
    (outputs targets : List ℤ) {net' : Network}
    (hbp : Network.back_propogate φd net outputs targets = some net') :
    net'.WF ∧ ShapePreserved net net' := by
  rw [Network.back_propogate] at hbp
  cases hlast : net.layers.getLast? with
  | none =>
    rw [hlast] at hbp
    exact Option.noConfusion hbp
  | some lastSize =>
    rw [hlast] at hbp
    by_cases ht : targets.length = lastSize
    · simp only [if_pos ht] at hbp
      obtain ⟨errors, hsub, hbp⟩ := Option.bind_eq_some.mp hbp
      obtain ⟨r, hloop, hbp⟩ := Option.bind_eq_some.mp hbp
      obtain ⟨ws', bs'⟩ := r
      have hnet : net.withParams ws' bs' = net' := Option.some.inj hbp
      obtain ⟨hl1, hl2, hws, hbs⟩ := bpLoop_shapes φd net.learning_rate net.data
        (net.layers.length - 1) net.weights net.biases errors
        ((Matrix.row outputs).map φd) ws' bs' hloop
      subst hnet
      exact WF_withParams ⟨h.1, h.2.1, h.2.2.1, h.2.2.2⟩ hl1 hl2 hws hbs
    · simp only [if_neg ht] at hbp
      exact Option.noConfusion hbp

/-- One training example keeps the invariant and all shapes. -/
lemma trainStep_preserves (φ φd : ℤ → ℤ) (inputs targets : List (List ℤ))
    (net : Network) (j : Nat) (m : Network) (hwf : net.WF)
    (h : trainStep φ φd inputs targets net j = some m) :
    m.WF ∧ ShapePreserved net m := by
  rw [trainStep] at h
  obtain ⟨inp, hin, h⟩ := Option.bind_eq_some.mp h
  obtain ⟨r, hff, h⟩ := Option.bind_eq_some.mp h
  obtain ⟨t, htg, h⟩ := Option.bind_eq_some.mp h
  obtain ⟨f1, f2, f3⟩ := ff_fields φ net inp r hff
  have hwf1 : r.2.WF := WF_of_fields f1 f2 f3 hwf
  have hsp1 : ShapePreserved net r.2 := ShapePreserved_of_fields f1 f2 f3
  obtain ⟨hwf2, hsp2⟩ := bp_preserves φd hwf1 r.1 t h
  exact ⟨hwf2, ShapePreserved.trans hsp1 hsp2⟩

/-- Folding training examples keeps the invariant and all shapes. -/
lemma trainEpoch_preserves (φ φd : ℤ → ℤ) (inputs targets : List (List ℤ)) :
    ∀ (l : List Nat) (net net' : Network), net.WF →
      l.foldlM (trainStep φ φd inputs targets) net = some net' →
      net'.WF ∧ ShapePreserved net net' := by
  intro l
  induction l with
  | nil =>
    intro net net' hwf h
    have h' : some net = some net' := h
    have h2 := Option.some.inj h'
    subst h2
    exact ⟨hwf, ShapePreserved.refl net⟩
  | cons a l ih =>
    intro net net' hwf h
    rw [List.foldlM_cons] at h
    obtain ⟨m, hfa, h⟩ := Option.bind_eq_some.mp h
    obtain ⟨hw1, hs1⟩ := trainStep_preserves φ φd inputs targets net a m hwf hfa
    obtain ⟨hw2, hs2⟩ := ih m net' hw1 h
    exact ⟨hw2, ShapePreserved.trans hs1 hs2⟩

/-- The epoch loop keeps the invariant and all shapes. -/
lemma trainLoop_preserves (φ φd : ℤ → ℤ) (inputs targets : List (List ℤ))
    (epochs : Nat) :
    ∀ n i net net', net.WF → trainLoop φ φd inputs targets epochs i n net = some net' →
      net'.WF ∧ ShapePreserved net net' := by
  intro n
  induction n with
  | zero =>
    intro i net net' hwf h
    have h' : some net = some net' := h
    have h2 := Option.some.inj h'
    subst h2
    exact ⟨hwf, ShapePreserved.refl net⟩
  | succ n ih =>
    intro i net net' hwf h
    rw [trainLoop] at h
    obtain ⟨b, hg, h⟩ := Option.bind_eq_some.mp h
    obtain ⟨m, he, h⟩ := Option.bind_eq_some.mp h
    obtain ⟨hw1, hs1⟩ :=
      trainEpoch_preserves φ φd inputs targets (List.range inputs.length) net m hwf he
    obtain ⟨hw2, hs2⟩ := ih (i + 1) m net' hw1 h
    exact ⟨hw2, ShapePreserved.trans hs1 hs2⟩

/-- C8: every operation on a well-formed network — feed_forward,
back_propogate, train, and save followed by load — preserves the structural
invariant (weights and biases both number layers.length - 1, weight matrix i
of shape (layers at i+1, layers at i), bias matrix i of shape
(layers at i+1, 1)) and changes neither the layer-size list nor the shape of
any weight or bias matrix. -/
theorem operations_preserve_invariant (φ φd : ℤ → ℤ) (net : Network) (h : net.WF) :
    (∀ inputs r, Network.feed_forward φ net inputs = some r →
      r.2.WF ∧ ShapePreserved net r.2) ∧
    (∀ outputs targets net', Network.back_propogate φd net outputs targets = some net' →
      net'.WF ∧ ShapePreserved net net') ∧
    (∀ inputs targets epochs net',
      Network.train φ φd net inputs targets epochs = some net' →
      net'.WF ∧ ShapePreserved net net') ∧
    ((Network.load (Network.save net)).WF ∧
      ShapePreserved net (Network.load (Network.save net))) := by
  refine ⟨?_, ?_, ?_, ?_⟩
  · intro inputs r hff
    obtain ⟨f1, f2, f3⟩ := ff_fields φ net inputs r hff
    exact ⟨WF_of_fields f1 f2 f3 h, ShapePreserved_of_fields f1 f2 f3⟩
  · intro outputs targets net' hbp
    exact bp_preserves φd h outputs targets hbp
  · intro inputs targets epochs net' htr
    exact trainLoop_preserves φ φd inputs targets epochs epochs 1 net net' h htr
  · exact ⟨WF_of_fields rfl rfl rfl h, ShapePreserved_of_fields rfl rfl rfl⟩

/-- C8 witness: the save-load conjunct instantiated at the concrete 3-4-2
network, with the invariant hypothesis discharged by evaluation. -/
theorem operations_preserve_invariant_witness :
    (Network.load (Network.save net342)).WF ∧
      ShapePreserved net342 (Network.load (Network.save net342)) :=
  (operations_preserve_invariant actId actId net342 (by decide)).2.2.2


end NN
